import Mathlib

/-
Verification of the social-network analytics core: a shallow embedding of
the Graph Store (social_network.py) and the analytics layer (analytics.py)
over a directed graph of users, with theorems settling the specified
behaviours.  Library algorithms from the underlying graph package
(community detection, eigenvector / betweenness / closeness centrality)
are modelled abstractly by their documented contracts; everything written
in the repository itself (dispatch, fallbacks, aggregation, the spread
simulation, degree centrality) is embedded concretely.
-/

namespace SocialMedia

/-- Attribute values stored on nodes and edges: strings or integers. -/
inductive AttrVal where
  | s (v : String)
  | i (v : Int)
deriving DecidableEq, Repr

/-- An attribute dictionary, modelled as an insertion-ordered association list. -/
abbrev AttrMap := List (String × AttrVal)

/-- First-match lookup in an attribute dictionary (Python dict access). -/
def lookupA (m : AttrMap) (k : String) : Option AttrVal :=
  match m with
  | [] => none
  | (a, b) :: rest => if a = k then some b else lookupA rest k

/-- Generic first-match lookup with a default (Python dict.get(k, d)). -/
def lookupD {α : Type} (l : List (String × α)) (k : String) (d : α) : α :=
  match l with
  | [] => d
  | (a, b) :: rest => if a = k then b else lookupD rest k d

/-- Set a key in an attribute dictionary: replace the first occurrence in
place, or append at the end (Python dict item assignment). -/
def setAttr (m : AttrMap) (k : String) (v : AttrVal) : AttrMap :=
  match m with
  | [] => [(k, v)]
  | (a, b) :: rest => if a = k then (a, v) :: rest else (a, b) :: setAttr rest k v

/-- Merge dictionary new into old, new values winning per key
(Python dict.update, as used by DiGraph.add_node / add_edge). -/
def updateAttrs (old new : AttrMap) : AttrMap :=
  new.foldl (fun acc kv => setAttr acc kv.1 kv.2) old

/-- The directed social graph: insertion-ordered node dictionary
(handle, attributes) and edge dictionary ((source, target), attributes).
Mirrors the adjacency structure of the DiGraph owned by SocialNetwork. -/
structure SocialGraph where
  nodes : List (String × AttrMap)
  edges : List ((String × String) × AttrMap)
deriving DecidableEq, Repr

/-- The empty graph SocialNetwork starts from. -/
def emptyGraph : SocialGraph := ⟨[], []⟩

/-- Node handles in insertion order (G.nodes()). -/
def nodeKeys (g : SocialGraph) : List String := g.nodes.map Prod.fst

/-- Directed edge pairs in insertion order (G.edges()). -/
def edgePairs (g : SocialGraph) : List (String × String) := g.edges.map Prod.fst

/-- First-match lookup in the node dictionary. -/
def lookupNodeIn (nodes : List (String × AttrMap)) (user : String) : Option AttrMap :=
  match nodes with
  | [] => none
  | (u, a) :: rest => if u = user then some a else lookupNodeIn rest user

/-- Attribute dictionary of a node, when present. -/
def lookupNode (g : SocialGraph) (user : String) : Option AttrMap :=
  lookupNodeIn g.nodes user

/-- One attribute of one node (G.nodes[u][k]). -/
def getAttr (g : SocialGraph) (user k : String) : Option AttrVal :=
  (lookupNode g user).bind (fun m => lookupA m k)

/-- Successors of a node in edge-insertion order (G.successors / G.neighbors
on a DiGraph). -/
def successors (g : SocialGraph) (u : String) : List String :=
  ((edgePairs g).filter (fun e => decide (e.1 = u))).map Prod.snd

/-- Undirected-projection neighbours of a node (successors then predecessors),
used by the connectivity analytics. -/
def undirAdj (g : SocialGraph) (u : String) : List String :=
  ((edgePairs g).filter (fun e => decide (e.1 = u))).map Prod.snd ++
    ((edgePairs g).filter (fun e => decide (e.2 = u))).map Prod.fst

/-- Well-formedness invariants the Graph Store maintains: node handles are
unique (dict keys), at most one edge per ordered pair (adjacency dict), and
every edge endpoint is a present node (enforced by add_friendship). -/
structure WF (g : SocialGraph) : Prop where
  nodesNodup : (nodeKeys g).Nodup
  edgesNodup : (edgePairs g).Nodup
  srcMem : ∀ p ∈ edgePairs g, p.1 ∈ nodeKeys g
  dstMem : ∀ p ∈ edgePairs g, p.2 ∈ nodeKeys g

/-- Update the attribute dictionary of an existing node by merging in new
attributes (DiGraph.add_node on a present node). -/
def updateNode (nodes : List (String × AttrMap)) (user : String) (attrs : AttrMap) :
    List (String × AttrMap) :=
  match nodes with
  | [] => []
  | (u, a) :: rest =>
      if u = user then (u, updateAttrs a attrs) :: rest
      else (u, a) :: updateNode rest user attrs

/-- DiGraph.add_node: append a fresh node, or merge attributes into an
existing one. -/
def addNode (g : SocialGraph) (user : String) (attrs : AttrMap) : SocialGraph :=
  if user ∈ nodeKeys g then ⟨updateNode g.nodes user attrs, g.edges⟩
  else ⟨g.nodes ++ [(user, attrs)], g.edges⟩

/-- The attribute defaulting step of add_user: when the supplied attributes
lack a name, append name = handle. -/
def withNameDefault (attributes : AttrMap) (user : String) : AttrMap :=
  if lookupA attributes "name" = none then attributes ++ [("name", AttrVal.s user)]
  else attributes

/-- SocialNetwork.add_user: default the name attribute to the handle when
absent, then add the node. -/
def add_user (g : SocialGraph) (user : String) (attributes : AttrMap) : SocialGraph :=
  addNode g user (withNameDefault attributes user)

/-- Update-or-append for the edge dictionary (DiGraph.add_edge merges the
data dict of an existing ordered pair). -/
def setEdge (edges : List ((String × String) × AttrMap)) (u1 u2 : String)
    (attrs : AttrMap) : List ((String × String) × AttrMap) :=
  match edges with
  | [] => [((u1, u2), attrs)]
  | (p, a) :: rest =>
      if p = (u1, u2) then (p, updateAttrs a attrs) :: rest
      else (p, a) :: setEdge rest u1 u2 attrs

/-- SocialNetwork.add_friendship: raise (an error value paired with the
unchanged graph) when either endpoint is absent, otherwise add the directed
edge with the supplied or default attributes. -/
def add_friendship (g : SocialGraph) (u1 u2 : String) (attributes : Option AttrMap) :
    Option String × SocialGraph :=
  if u1 ∉ nodeKeys g then (some ("User " ++ u1 ++ " not found"), g)
  else if u2 ∉ nodeKeys g then (some ("User " ++ u2 ++ " not found"), g)
  else
    let attrs := attributes.getD [("type", AttrVal.s "Friend"), ("strength", AttrVal.i 5)]
    (none, ⟨g.nodes, setEdge g.edges u1 u2 attrs⟩)

/-- Increment a counter keyed by handle, inserting it at the end on first
sight (defaultdict(int) access pattern in recommend_friends). -/
def bump (l : List (String × Nat)) (k : String) : List (String × Nat) :=
  match l with
  | [] => [(k, 1)]
  | (a, n) :: rest => if a = k then (a, n + 1) :: rest else (a, n) :: bump rest k

/-- SocialNetwork.recommend_friends: empty for an unknown user; otherwise
count, per two-hop neighbour that is neither the user nor a direct
successor, the number of direct successors leading to it, and sort the
pairs by count descending (stable, mirroring Python sorted). -/
def recommend_friends (g : SocialGraph) (user : String) : List (String × Nat) :=
  if user ∈ nodeKeys g then
    (((successors g user).flatMap (fun f => successors g f)).foldl
      (fun acc c => if c ≠ user ∧ c ∉ successors g user then bump acc c else acc)
      []).mergeSort (fun a b => decide (b.2 ≤ a.2))
  else []

/-- Append a node to the list bucket of its community id, creating the
bucket at the end on first sight (defaultdict(list) in the louvain branch
of detect_communities). -/
def addToGroup (groups : List (Nat × List String)) (cid : Nat) (node : String) :
    List (Nat × List String) :=
  match groups with
  | [] => [(cid, [node])]
  | (c, ns) :: rest =>
      if c = cid then (c, ns ++ [node]) :: rest
      else (c, ns) :: addToGroup rest cid node

/-- Group a node-to-community-id partition dictionary into community lists,
in first-appearance order of the ids (the louvain branch reshaping). -/
def groupByCommunity (partition : List (String × Nat)) : List (List String) :=
  (partition.foldl (fun acc p => addToGroup acc p.2 p.1) []).map Prod.snd

/-- The community-detection algorithms of the underlying graph library,
each operating on the undirected projection: the first partition yielded by
girvan_newman, greedy modularity communities, label propagation
communities, and the optional louvain best_partition (a node-to-id
dictionary); none when the louvain package is unavailable (ImportError). -/
structure CommunityLib where
  girvanNewmanFirst : SocialGraph → List (List String)
  greedyModularity : SocialGraph → List (List String)
  labelPropagation : SocialGraph → List (List String)
  louvain : Option (SocialGraph → List (String × Nat))

/-- SocialNetwork.detect_communities: string dispatch over the method name;
louvain falls back to greedy modularity on ImportError, and any
unrecognized method falls back to girvan_newman. -/
def detect_communities (lib : CommunityLib) (g : SocialGraph) (method : String) :
    List (List String) :=
  if method = "girvan_newman" then lib.girvanNewmanFirst g
  else if method = "greedy_modularity" then lib.greedyModularity g
  else if method = "label_propagation" then lib.labelPropagation g
  else if method = "louvain" then
    match lib.louvain with
    | some bp => groupByCommunity (bp g)
    | none => lib.greedyModularity g
  else lib.girvanNewmanFirst g

/-- A list of communities partitions a node list: a handle lies in some
community exactly when it is a node, and distinct communities never share
a handle. -/
def IsPartition (cs : List (List String)) (ns : List String) : Prop :=
  (∀ u, (∃ c ∈ cs, u ∈ c) ↔ u ∈ ns) ∧
    cs.Pairwise (fun c d => ∀ u, u ∈ c → u ∉ d)

/-- One frontier of a closure computation: the not-yet-reached adjacent
nodes of the currently reached ones, scanning reached nodes in graph
order. -/
def closStep (adj : String → List String) (nodes : List String) (S : Finset String) :
    List String :=
  (nodes.filter (fun u => decide (u ∈ S))).flatMap
    (fun u => (adj u).filter (fun v => !(decide (v ∈ S))))

/-- Iterated closure with fuel, stopping early when a round adds nothing. -/
def closLoop (adj : String → List String) (nodes : List String) :
    Nat → Finset String → Finset String
  | 0, S => S
  | n + 1, S =>
      if closStep adj nodes S = [] then S
      else closLoop adj nodes n (S ∪ (closStep adj nodes S).toFinset)

/-- Directed reachability along edges, source to target. -/
def Reaches (g : SocialGraph) (u v : String) : Prop :=
  Relation.ReflTransGen (fun a b => (a, b) ∈ edgePairs g) u v

/-- Undirected connected components in first-discovery order
(nx.connected_components over the undirected projection). -/
def componentsAux (g : SocialGraph) : List String → Finset String → List (Finset String)
  | [], _ => []
  | u :: us, seen =>
      if u ∈ seen then componentsAux g us seen
      else
        let c := closLoop (undirAdj g) (nodeKeys g) (nodeKeys g).length {u}
        c :: componentsAux g us (seen ∪ c)

/-- All undirected connected components of the graph. -/
def connected_components (g : SocialGraph) : List (Finset String) :=
  componentsAux g (nodeKeys g) ∅

/-- nx.is_connected on the undirected projection: raises on the null graph,
otherwise checks that a traversal from the first node covers every node. -/
def is_connected (g : SocialGraph) : Except String Bool :=
  match nodeKeys g with
  | [] => Except.error "Connectivity is undefined for the null graph."
  | u :: _ =>
      Except.ok (decide
        ((closLoop (undirAdj g) (nodeKeys g) (nodeKeys g).length {u}).card =
          (nodeKeys g).length))

/-- Two-decimal percentage formatting with a trailing percent sign
(the f-string in get_connectivity_data). -/
def formatPct (q : ℚ) : String :=
  let s : ℤ := round (q * 100)
  let fp := (s % 100).toNat
  toString (s / 100) ++ "." ++ (if fp < 10 then "0" else "") ++ toString fp ++ "%"

/-- The structured record returned by get_connectivity_data. -/
structure ConnectivityData where
  connected : Bool
  numComponents : Nat
  largestSize : Nat
  largestPct : String
  componentSizes : List Nat
deriving DecidableEq, Repr

/-- NetworkAnalytics.get_connectivity_data: asks is_connected first (which
fails on the null graph), then assembles component statistics; the
percentage falls back to 0 for an empty graph. -/
def get_connectivity_data (g : SocialGraph) : Except String ConnectivityData :=
  match is_connected g with
  | Except.error e => Except.error e
  | Except.ok conn =>
      let comps := connected_components g
      let sizes := comps.map (fun c => c.card)
      let largest : Nat := sizes.foldr max 0
      let pct : ℚ :=
        if 0 < (nodeKeys g).length
        then ((largest : ℚ) / ((nodeKeys g).length : ℚ)) * 100 else 0
      Except.ok ⟨conn, comps.length, largest, formatPct pct, sizes⟩

/-- Degree of a node in the DiGraph: out-degree plus in-degree (each
self-loop therefore counts twice). -/
def degree (g : SocialGraph) (u : String) : Nat :=
  ((edgePairs g).filter (fun e => decide (e.1 = u))).length +
    ((edgePairs g).filter (fun e => decide (e.2 = u))).length

/-- nx.degree_centrality: every node scores 1 on a graph with at most one
node; otherwise degree divided by (n - 1). -/
def degree_centrality (g : SocialGraph) : List (String × ℚ) :=
  if (nodeKeys g).length ≤ 1 then (nodeKeys g).map (fun n => (n, 1))
  else (nodeKeys g).map
    (fun n => (n, (degree g n : ℚ) / (((nodeKeys g).length : ℚ) - 1)))

/-- The remaining three centrality algorithms of the graph library, each
returning a per-node score dictionary, or none when the computation raises
(eigenvector non-convergence, or any internal failure). -/
structure CentralityLib where
  eigenvector : SocialGraph → Option (List (String × ℚ))
  betweenness : SocialGraph → Option (List (String × ℚ))
  closeness : SocialGraph → Option (List (String × ℚ))

/-- The four-score centrality record kept per user. -/
structure CentralityRecord where
  degreeC : ℚ
  eigenvectorC : ℚ
  betweennessC : ℚ
  closenessC : ℚ
deriving DecidableEq, Repr

/-- The all-zero centrality record. -/
def zeroRecord : CentralityRecord := ⟨0, 0, 0, 0⟩

/-- NetworkAnalytics.get_centrality_measures: empty mapping on the empty
graph; otherwise degree centrality computed directly, the other three
falling back to all-zero dictionaries on failure, then one record per node
assembled with dict.get(node, 0.0) defaults. -/
def get_centrality_measures (lib : CentralityLib) (g : SocialGraph) :
    List (String × CentralityRecord) :=
  if (nodeKeys g).length = 0 then []
  else
    (nodeKeys g).map (fun n =>
      (n, ⟨lookupD (degree_centrality g) n 0,
        lookupD ((lib.eigenvector g).getD ((nodeKeys g).map (fun m => (m, (0 : ℚ))))) n 0,
        lookupD ((lib.betweenness g).getD ((nodeKeys g).map (fun m => (m, (0 : ℚ))))) n 0,
        lookupD ((lib.closeness g).getD ((nodeKeys g).map (fun m => (m, (0 : ℚ))))) n 0⟩))

/-- NetworkAnalytics.get_user_centrality: dictionary lookup with an
all-zero default record. -/
def get_user_centrality (lib : CentralityLib) (g : SocialGraph) (user : String) :
    CentralityRecord :=
  lookupD (get_centrality_measures lib g) user zeroRecord

/-- NetworkAnalytics.calculate_influence_score: 0.0 for an unknown user;
otherwise the weighted sum of the centrality record, divided by the total
weight. -/
def calculate_influence_score (lib : CentralityLib) (g : SocialGraph) (user : String) : ℚ :=
  if user ∈ nodeKeys g then
    let c := get_user_centrality lib g user
    let score := c.degreeC * (3 / 10) + c.eigenvectorC * (3 / 10) +
      c.betweennessC * (3 / 10) + c.closenessC * (1 / 10)
    score / ((3 : ℚ) / 10 + 3 / 10 + 3 / 10 + 1 / 10)
  else 0

/-- Number of random draws one informed user consumes while visiting its
neighbour list: exactly one per not-yet-informed neighbour, whatever the
outcomes. -/
def drawsUsed (informed : Finset String) (vs : List String) : Nat :=
  (vs.filter (fun v => !(decide (v ∈ informed)))).length

/-- One informed user trying to pass the information to each of its listed
neighbours: an uninformed neighbour joins the newly-informed list when the
next random draw beats the probability; one draw is consumed per
uninformed neighbour visited. -/
def spreadTrials (p : ℚ) (ρ : Nat → ℚ) (informed : Finset String) :
    List String → Nat → List String
  | [], _ => []
  | v :: vs, c =>
      if v ∈ informed then spreadTrials p ρ informed vs c
      else if ρ c < p then v :: spreadTrials p ρ informed vs (c + 1)
      else spreadTrials p ρ informed vs (c + 1)

/-- One simulation iteration: every user informed at the start of the
round tries to spread to its successors; new infections are collected and
applied only afterwards, and each user continues from the draw index its
predecessors left off at. -/
def spreadRound (g : SocialGraph) (p : ℚ) (ρ : Nat → ℚ) (informed : Finset String) :
    List String → Nat → List String
  | [], _ => []
  | u :: us, c =>
      spreadTrials p ρ informed (successors g u) c ++
        spreadRound g p ρ informed us (c + drawsUsed informed (successors g u))

/-- Draws consumed by one whole iteration. -/
def roundDraws (g : SocialGraph) (informed : Finset String) (us : List String) : Nat :=
  (us.map (fun u => drawsUsed informed (successors g u))).sum

/-- The iteration loop of the spread simulation, breaking early when a
round informs nobody new. -/
def spreadLoop (g : SocialGraph) (p : ℚ) (ρ : Nat → ℚ) :
    Nat → Finset String → Nat → Finset String
  | 0, informed, _ => informed
  | n + 1, informed, c =>
      if spreadRound g p ρ informed
          ((nodeKeys g).filter (fun u => decide (u ∈ informed))) c = [] then informed
      else spreadLoop g p ρ n
        (informed ∪ (spreadRound g p ρ informed
          ((nodeKeys g).filter (fun u => decide (u ∈ informed))) c).toFinset)
        (c + roundDraws g informed ((nodeKeys g).filter (fun u => decide (u ∈ informed))))

/-- NetworkAnalytics.simulate_information_spread: empty mapping for an
unknown seed; otherwise run the loop from the seed alone and report, per
node in graph order, whether it ended up informed.  The sequence of
uniform draws random.random() would produce is passed in explicitly. -/
def simulate_information_spread (g : SocialGraph) (start : String) (p : ℚ)
    (iterations : Nat) (ρ : Nat → ℚ) : List (String × Bool) :=
  if start ∈ nodeKeys g then
    (nodeKeys g).map (fun u => (u, decide (u ∈ spreadLoop g p ρ iterations {start} 0)))
  else []

/-- Uniform draws from random.random() lie in the half-open unit interval. -/
def ValidDraws (ρ : Nat → ℚ) : Prop := ∀ k, 0 ≤ ρ k ∧ ρ k < 1

/-! Association-list lemmas used throughout. -/

theorem lookupD_not_mem {α : Type} (l : List (String × α)) (k : String) (d : α)
    (h : k ∉ l.map Prod.fst) : lookupD l k d = d := by
  induction l with
  | nil => rfl
  | cons p rest ih =>
      obtain ⟨a, b⟩ := p
      simp only [List.map_cons, List.mem_cons] at h
      push_neg at h
      simp only [lookupD]
      rw [if_neg (fun hc => h.1 hc.symm)]
      exact ih h.2

theorem lookupA_eq_none_iff (m : AttrMap) (k : String) :
    lookupA m k = none ↔ k ∉ m.map Prod.fst := by
  induction m with
  | nil => simp [lookupA]
  | cons p rest ih =>
      obtain ⟨a, b⟩ := p
      by_cases hak : a = k
      · subst hak
        simp [lookupA]
      · simp only [lookupA, if_neg hak, List.map_cons, List.mem_cons]
        rw [ih]
        constructor
        · intro h hc
          rcases hc with hc | hc
          · exact hak hc.symm
          · exact h hc
        · intro h hc
          exact h (Or.inr hc)

theorem lookupA_append_left (m1 m2 : AttrMap) (k : String) (v : AttrVal)
    (h : lookupA m1 k = some v) : lookupA (m1 ++ m2) k = some v := by
  induction m1 with
  | nil => simp [lookupA] at h
  | cons p rest ih =>
      obtain ⟨a, b⟩ := p
      by_cases hak : a = k
      · simp only [lookupA, if_pos hak] at h ⊢
        exact h
      · simp only [lookupA, if_neg hak] at h ⊢
        exact ih h

theorem lookupA_append_right (m1 m2 : AttrMap) (k : String)
    (h : lookupA m1 k = none) : lookupA (m1 ++ m2) k = lookupA m2 k := by
  induction m1 with
  | nil => rfl
  | cons p rest ih =>
      obtain ⟨a, b⟩ := p
      by_cases hak : a = k
      · simp [lookupA, if_pos hak] at h
      · simp only [lookupA, if_neg hak] at h ⊢
        exact ih h

theorem lookupA_setAttr (m : AttrMap) (k : String) (v : AttrVal) (k2 : String) :
    lookupA (setAttr m k v) k2 = if k = k2 then some v else lookupA m k2 := by
  induction m with
  | nil => simp [setAttr, lookupA]
  | cons p rest ih =>
      obtain ⟨a, b⟩ := p
      by_cases hak : a = k
      · subst hak
        simp only [setAttr, if_pos rfl, lookupA]
        by_cases h2 : a = k2
        · simp [h2]
        · simp [h2]
      · simp only [setAttr, if_neg hak, lookupA]
        by_cases h2 : a = k2
        · rw [if_pos h2, if_pos h2, if_neg (fun hc => hak (h2.trans hc.symm))]
        · rw [if_neg h2, if_neg h2, ih]

theorem lookupA_updateAttrs (old new : AttrMap) (k : String)
    (hnodup : (new.map Prod.fst).Nodup) :
    lookupA (updateAttrs old new) k =
      (lookupA new k).orElse (fun _ => lookupA old k) := by
  induction new generalizing old with
  | nil => rfl
  | cons p rest ih =>
      obtain ⟨a, b⟩ := p
      simp only [List.map_cons, List.nodup_cons] at hnodup
      have step : updateAttrs old ((a, b) :: rest) = updateAttrs (setAttr old a b) rest := rfl
      rw [step, ih (setAttr old a b) hnodup.2]
      by_cases hak : a = k
      · subst hak
        have hnone : lookupA rest a = none := (lookupA_eq_none_iff rest a).mpr hnodup.1
        simp only [lookupA, if_pos rfl, hnone, lookupA_setAttr, if_pos rfl]
        rfl
      · simp only [lookupA, if_neg hak, lookupA_setAttr, if_neg hak]

theorem lookupNodeIn_eq_none_iff (nodes : List (String × AttrMap)) (user : String) :
    lookupNodeIn nodes user = none ↔ user ∉ nodes.map Prod.fst := by
  induction nodes with
  | nil => simp [lookupNodeIn]
  | cons p rest ih =>
      obtain ⟨a, b⟩ := p
      by_cases hau : a = user
      · subst hau
        simp [lookupNodeIn]
      · simp only [lookupNodeIn, if_neg hau, List.map_cons, List.mem_cons]
        rw [ih]
        constructor
        · intro h hc
          rcases hc with hc | hc
          · exact hau hc.symm
          · exact h hc
        · intro h hc
          exact h (Or.inr hc)

theorem lookupNodeIn_append_fresh (nodes : List (String × AttrMap)) (user : String)
    (attrs : AttrMap) (h : user ∉ nodes.map Prod.fst) :
    lookupNodeIn (nodes ++ [(user, attrs)]) user = some attrs := by
  induction nodes with
  | nil => simp [lookupNodeIn]
  | cons p rest ih =>
      obtain ⟨a, b⟩ := p
      simp only [List.map_cons, List.mem_cons] at h
      push_neg at h
      simp only [List.cons_append, lookupNodeIn]
      rw [if_neg (fun hc => h.1 hc.symm)]
      exact ih h.2

theorem lookupNodeIn_updateNode (nodes : List (String × AttrMap)) (user : String)
    (attrs old : AttrMap) (h : lookupNodeIn nodes user = some old) :
    lookupNodeIn (updateNode nodes user attrs) user = some (updateAttrs old attrs) := by
  induction nodes with
  | nil => simp [lookupNodeIn] at h
  | cons p rest ih =>
      obtain ⟨a, b⟩ := p
      by_cases hau : a = user
      · subst hau
        simp only [lookupNodeIn, if_pos rfl] at h
        cases h
        simp [updateNode, lookupNodeIn]
      · simp only [lookupNodeIn, if_neg hau] at h
        simp only [updateNode, if_neg hau, lookupNodeIn, if_neg hau]
        exact ih h

theorem updateNode_keys (nodes : List (String × AttrMap)) (user : String) (attrs : AttrMap) :
    (updateNode nodes user attrs).map Prod.fst = nodes.map Prod.fst := by
  induction nodes with
  | nil => rfl
  | cons p rest ih =>
      obtain ⟨a, b⟩ := p
      by_cases hau : a = user
      · simp [updateNode, hau]
      · simp [updateNode, hau, ih]

theorem lookupNodeIn_isSome_of_mem (nodes : List (String × AttrMap)) (user : String)
    (h : user ∈ nodes.map Prod.fst) : ∃ a, lookupNodeIn nodes user = some a := by
  cases hl : lookupNodeIn nodes user with
  | some a => exact ⟨a, rfl⟩
  | none => exact absurd ((lookupNodeIn_eq_none_iff nodes user).mp hl) (fun hc => hc h)

theorem withNameDefault_name (attributes : AttrMap) (user : String)
    (h : lookupA attributes "name" = none) :
    lookupA (withNameDefault attributes user) "name" = some (AttrVal.s user) := by
  unfold withNameDefault
  rw [if_pos h, lookupA_append_right _ _ _ h]
  rfl

theorem withNameDefault_keys_nodup (attributes : AttrMap) (user : String)
    (h : (attributes.map Prod.fst).Nodup) :
    ((withNameDefault attributes user).map Prod.fst).Nodup := by
  unfold withNameDefault
  by_cases hn : lookupA attributes "name" = none
  · rw [if_pos hn]
    rw [List.map_append]
    apply List.Nodup.append h (by simp)
    intro x hx hy
    simp only [List.map_cons, List.map_nil, List.mem_singleton] at hy
    subst hy
    exact (lookupA_eq_none_iff attributes "name").mp hn hx
  · rw [if_neg hn]
    exact h

/-- Claim C3: add_friendship with a missing endpoint reports a NotFound
error and leaves the graph exactly as it was. -/
theorem add_friendship_notfound (g : SocialGraph) (u1 u2 : String) (a : Option AttrMap)
    (h : u1 ∉ nodeKeys g ∨ u2 ∉ nodeKeys g) :
    (add_friendship g u1 u2 a).1.isSome = true ∧ (add_friendship g u1 u2 a).2 = g := by
  unfold add_friendship
  rcases h with h | h
  · rw [if_pos h]
    exact ⟨rfl, rfl⟩
  · by_cases h1 : u1 ∉ nodeKeys g
    · rw [if_pos h1]
      exact ⟨rfl, rfl⟩
    · rw [if_neg h1, if_pos h]
      exact ⟨rfl, rfl⟩

/-- Witness for C3 at a concrete graph: adding a friendship from a to the
absent b fails and the one-node graph is unchanged. -/
theorem add_friendship_notfound_witness :
    (add_friendship (add_user emptyGraph "a" []) "a" "b" none).1.isSome = true ∧
      (add_friendship (add_user emptyGraph "a" []) "a" "b" none).2 =
        add_user emptyGraph "a" [] :=
  add_friendship_notfound (add_user emptyGraph "a" []) "a" "b" none (Or.inr (by decide))

/-- Claim C4: on the empty graph, get_connectivity_data does not return its
record with a 0.00% percentage; it fails, because is_connected raises on
the null graph before the empty-graph percentage guard is reached. -/
theorem connectivity_null_graph :
    get_connectivity_data emptyGraph =
      Except.error "Connectivity is undefined for the null graph." := rfl

/-- Claim C6 counterexample: re-adding user a (which holds location NY)
with only an age attribute keeps the previous location value, so the
previous attribute values do survive a re-add. -/
theorem add_user_overwrite_counterexample :
    getAttr (add_user (add_user emptyGraph "a" [("location", AttrVal.s "NY")]) "a"
        [("age", AttrVal.i 30)]) "a" "location" = some (AttrVal.s "NY") := by
  decide

/-- Claim C6 as amended: add_user inserts the node; when the supplied
attributes lack a name the stored name is the handle; and re-adding an
existing handle merges dictionaries — a supplied key (including the
defaulted name) overwrites the old value, while old keys that are not
re-supplied keep their previous values. -/
theorem add_user_amended (g : SocialGraph) (user : String) (attrs : AttrMap)
    (hkeys : (attrs.map Prod.fst).Nodup) :
    user ∈ nodeKeys (add_user g user attrs)
    ∧ (lookupA attrs "name" = none →
        getAttr (add_user g user attrs) user "name" = some (AttrVal.s user))
    ∧ (∀ old, lookupNode g user = some old → ∀ k,
        getAttr (add_user g user attrs) user k =
          (lookupA (withNameDefault attrs user) k).orElse (fun _ => lookupA old k)) := by
  unfold add_user addNode
  by_cases hmem : user ∈ nodeKeys g
  · rw [if_pos hmem]
    obtain ⟨old, hold⟩ := lookupNodeIn_isSome_of_mem g.nodes user hmem
    have hupd : ∀ k, getAttr ⟨updateNode g.nodes user (withNameDefault attrs user), g.edges⟩
        user k =
        (lookupA (withNameDefault attrs user) k).orElse (fun _ => lookupA old k) := by
      intro k
      unfold getAttr lookupNode
      rw [lookupNodeIn_updateNode g.nodes user _ old hold]
      simp only [Option.some_bind]
      rw [lookupA_updateAttrs old _ k (withNameDefault_keys_nodup attrs user hkeys)]
    refine ⟨?_, ?_, ?_⟩
    · unfold nodeKeys
      simp only
      rw [updateNode_keys]
      exact hmem
    · intro hname
      rw [hupd "name", withNameDefault_name attrs user hname]
      rfl
    · intro old2 hold2 k
      have : old2 = old := by
        have := hold2
        unfold lookupNode at this
        rw [hold] at this
        exact (Option.some_injective _ this).symm
      subst this
      exact hupd k
  · rw [if_neg hmem]
    have hfresh : lookupNodeIn (g.nodes ++ [(user, withNameDefault attrs user)]) user =
        some (withNameDefault attrs user) :=
      lookupNodeIn_append_fresh g.nodes user _ hmem
    refine ⟨?_, ?_, ?_⟩
    · unfold nodeKeys
      simp
    · intro hname
      unfold getAttr lookupNode
      rw [hfresh]
      simp only [Option.some_bind]
      exact withNameDefault_name attrs user hname
    · intro old hold
      exfalso
      have : lookupNodeIn g.nodes user = none :=
        (lookupNodeIn_eq_none_iff g.nodes user).mpr hmem
      unfold lookupNode at hold
      rw [this] at hold
      cases hold

/-- Witness for C6 as amended, at a concrete re-add: the node stays
present, the defaulted name is the handle, and the merged record keeps the
old location while gaining the new age. -/
theorem add_user_amended_witness :
    ("a" ∈ nodeKeys (add_user (add_user emptyGraph "a" [("location", AttrVal.s "NY")]) "a"
        [("age", AttrVal.i 30)]))
    ∧ getAttr (add_user (add_user emptyGraph "a" [("location", AttrVal.s "NY")]) "a"
        [("age", AttrVal.i 30)]) "a" "location" =
        (lookupA (withNameDefault [("age", AttrVal.i 30)] "a") "location").orElse
          (fun _ => lookupA [("location", AttrVal.s "NY"), ("name", AttrVal.s "a")] "location") := by
  have h := add_user_amended (add_user emptyGraph "a" [("location", AttrVal.s "NY")]) "a"
    [("age", AttrVal.i 30)] (by decide)
  exact ⟨h.1, h.2.2 [("location", AttrVal.s "NY"), ("name", AttrVal.s "a")] (by decide) "location"⟩

/-- Claim C7: for a handle absent from the graph, the per-user centrality
lookup yields the all-zero record and the influence score is 0. -/
theorem unknown_user_centrality_zero (lib : CentralityLib) (g : SocialGraph) (user : String)
    (h : user ∉ nodeKeys g) :
    get_user_centrality lib g user = zeroRecord ∧
      calculate_influence_score lib g user = 0 := by
  constructor
  · unfold get_user_centrality
    apply lookupD_not_mem
    intro hmem
    unfold get_centrality_measures at hmem
    by_cases hz : (nodeKeys g).length = 0
    · simp [hz] at hmem
    · rw [if_neg hz] at hmem
      simp only [List.map_map] at hmem
      have : (Prod.fst ∘ fun n => ((n : String),
          (⟨lookupD (degree_centrality g) n 0,
            lookupD ((lib.eigenvector g).getD ((nodeKeys g).map (fun n => (n, (0 : ℚ))))) n 0,
            lookupD ((lib.betweenness g).getD ((nodeKeys g).map (fun n => (n, (0 : ℚ))))) n 0,
            lookupD ((lib.closeness g).getD ((nodeKeys g).map (fun n => (n, (0 : ℚ))))) n 0⟩ :
            CentralityRecord))) = id := rfl
      rw [this, List.map_id] at hmem
      exact h hmem
  · unfold calculate_influence_score
    rw [if_neg h]

/-- Witness for C7 at a concrete graph and the trivial library. -/
theorem unknown_user_centrality_zero_witness :
    get_user_centrality ⟨fun _ => none, fun _ => none, fun _ => none⟩
        (add_user emptyGraph "a" []) "x" = zeroRecord ∧
      calculate_influence_score ⟨fun _ => none, fun _ => none, fun _ => none⟩
        (add_user emptyGraph "a" []) "x" = 0 :=
  unknown_user_centrality_zero ⟨fun _ => none, fun _ => none, fun _ => none⟩
    (add_user emptyGraph "a" []) "x" (by decide)

/-- Claim C10: recommend_friends on an unknown handle returns the empty
list instead of raising, and (being a pure query) leaves the graph alone. -/
theorem recommend_friends_unknown (g : SocialGraph) (u : String) (h : u ∉ nodeKeys g) :
    recommend_friends g u = [] := by
  unfold recommend_friends
  rw [if_neg h]

/-- Witness for C10 at a concrete graph. -/
theorem recommend_friends_unknown_witness :
    recommend_friends (add_user emptyGraph "a" []) "x" = [] :=
  recommend_friends_unknown (add_user emptyGraph "a" []) "x" (by decide)

/-! Community-partition development for detect_communities. -/

theorem allMembers_addToGroup (groups : List (Nat × List String)) (cid : Nat)
    (node : String) :
    ((addToGroup groups cid node).map Prod.snd).flatten.Perm
      ((groups.map Prod.snd).flatten ++ [node]) := by
  induction groups with
  | nil => simp [addToGroup]
  | cons p rest ih =>
      obtain ⟨c, ns⟩ := p
      by_cases hc : c = cid
      · simp only [addToGroup, if_pos hc, List.map_cons, List.flatten_cons]
        rw [List.append_assoc, List.append_assoc]
        exact List.Perm.append_left ns (List.perm_append_singleton node _).symm
      · simp only [addToGroup, if_neg hc, List.map_cons, List.flatten_cons]
        rw [List.append_assoc]
        exact List.Perm.append_left ns ih

theorem allMembers_foldGroups (partition : List (String × Nat))
    (init : List (Nat × List String)) :
    (((partition.foldl (fun acc p => addToGroup acc p.2 p.1) init).map Prod.snd).flatten).Perm
      ((init.map Prod.snd).flatten ++ partition.map Prod.fst) := by
  induction partition generalizing init with
  | nil => simp
  | cons p rest ih =>
      simp only [List.foldl_cons, List.map_cons]
      have h1 := ih (addToGroup init p.2 p.1)
      have h2 : (((addToGroup init p.2 p.1).map Prod.snd).flatten ++
          rest.map Prod.fst).Perm
          (((init.map Prod.snd).flatten ++ [p.1]) ++ rest.map Prod.fst) :=
        List.Perm.append_right (rest.map Prod.fst) (allMembers_addToGroup init p.2 p.1)
      have h3 := h1.trans h2
      rw [List.append_assoc, List.singleton_append] at h3
      exact h3

theorem groupByCommunity_flatten_perm (partition : List (String × Nat)) :
    (groupByCommunity partition).flatten.Perm (partition.map Prod.fst) := by
  unfold groupByCommunity
  simpa using allMembers_foldGroups partition []

/-- Grouping a node-to-community-id dictionary whose key set is exactly the
(duplicate-free) node list yields a partition of that node list. -/
theorem groupByCommunity_partition (partition : List (String × Nat)) (ns : List String)
    (hperm : (partition.map Prod.fst).Perm ns) (hnodup : ns.Nodup) :
    IsPartition (groupByCommunity partition) ns := by
  have hflat : (groupByCommunity partition).flatten.Perm ns :=
    (groupByCommunity_flatten_perm partition).trans hperm
  constructor
  · intro u
    constructor
    · intro h
      exact hflat.mem_iff.mp (List.mem_flatten.mpr h)
    · intro h
      exact List.mem_flatten.mp (hflat.mem_iff.mpr h)
  · have hnd : (groupByCommunity partition).flatten.Nodup :=
      hflat.nodup_iff.mpr hnodup
    have h2 := (List.nodup_flatten.mp hnd).2
    refine List.Pairwise.imp ?_ h2
    intro c d h u hu
    exact h hu

/-- Claim C2: for every supported method string and any unrecognized one
(which falls back to girvan_newman), detect_communities returns a
partition of the node set — given that each library community algorithm
returns a partition of the nodes, and that louvain best_partition returns
a dictionary keyed by exactly the nodes. -/
theorem detect_communities_partition (lib : CommunityLib) (g : SocialGraph)
    (method : String) (wf : WF g)
    (hgn : IsPartition (lib.girvanNewmanFirst g) (nodeKeys g))
    (hgm : IsPartition (lib.greedyModularity g) (nodeKeys g))
    (hlp : IsPartition (lib.labelPropagation g) (nodeKeys g))
    (hlv : ∀ bp, lib.louvain = some bp → ((bp g).map Prod.fst).Perm (nodeKeys g)) :
    IsPartition (detect_communities lib g method) (nodeKeys g) := by
  unfold detect_communities
  by_cases h1 : method = "girvan_newman"
  · rw [if_pos h1]
    exact hgn
  · rw [if_neg h1]
    by_cases h2 : method = "greedy_modularity"
    · rw [if_pos h2]
      exact hgm
    · rw [if_neg h2]
      by_cases h3 : method = "label_propagation"
      · rw [if_pos h3]
        exact hlp
      · rw [if_neg h3]
        by_cases h4 : method = "louvain"
        · rw [if_pos h4]
          cases hl : lib.louvain with
          | some bp =>
              exact groupByCommunity_partition (bp g) (nodeKeys g) (hlv bp hl)
                wf.nodesNodup
          | none => exact hgm
        · rw [if_neg h4]
          exact hgn

/-- A single community holding the whole node list is a partition of it. -/
theorem isPartition_single (ns : List String) : IsPartition [ns] ns := by
  constructor
  · intro u
    simp
  · simp

/-- A concrete three-user chain graph (a → b → c) used by witnesses. -/
def chainGraph : SocialGraph :=
  (add_friendship
    (add_friendship (add_user (add_user (add_user emptyGraph "a" []) "b" []) "c" [])
      "a" "b" none).2
    "b" "c" none).2

/-- The chain graph satisfies the Graph Store invariants. -/
theorem chainGraph_wf : WF chainGraph :=
  ⟨by decide, by decide, by decide, by decide⟩

/-- A trivial instantiation of the community library: one community with
every node, and a louvain dictionary assigning every node id 0. -/
def trivCommunityLib : CommunityLib :=
  ⟨fun g => [nodeKeys g], fun g => [nodeKeys g], fun g => [nodeKeys g],
    some (fun g => (nodeKeys g).map (fun n => (n, 0)))⟩

/-- Witness for C2: at the chain graph with the trivial library and an
unrecognized method string, the result is a partition of the nodes. -/
theorem detect_communities_partition_witness :
    IsPartition (detect_communities trivCommunityLib chainGraph "modularity-magic")
      (nodeKeys chainGraph) := by
  apply detect_communities_partition trivCommunityLib chainGraph "modularity-magic"
    chainGraph_wf (isPartition_single _) (isPartition_single _) (isPartition_single _)
  intro bp h
  injection h with h
  subst h
  decide

/-! Development for recommend_friends. -/

theorem mem_successors (g : SocialGraph) (u v : String) :
    v ∈ successors g u ↔ (u, v) ∈ edgePairs g := by
  unfold successors
  simp only [List.mem_map, List.mem_filter]
  constructor
  · rintro ⟨e, ⟨he, hd⟩, hv⟩
    have h1 : e.1 = u := by simpa using hd
    have h2 : e = (u, v) := by
      obtain ⟨x, y⟩ := e
      simp only at h1 hv
      rw [h1, hv]
    rwa [h2] at he
  · intro h
    exact ⟨(u, v), ⟨h, by simp⟩, rfl⟩

theorem bump_keys (l : List (String × Nat)) (k : String) :
    ∀ x ∈ (bump l k).map Prod.fst, x = k ∨ x ∈ l.map Prod.fst := by
  induction l with
  | nil =>
      intro x hx
      simp [bump] at hx
      exact Or.inl hx
  | cons q rest ih =>
      obtain ⟨a, n⟩ := q
      intro x hx
      by_cases hak : a = k
      · simp only [bump, if_pos hak, List.map_cons, List.mem_cons] at hx
        rcases hx with hx | hx
        · exact Or.inr (by simp [hx])
        · exact Or.inr (by simp [hx])
      · simp only [bump, if_neg hak, List.map_cons, List.mem_cons] at hx
        rcases hx with hx | hx
        · exact Or.inr (by simp [hx])
        · rcases ih x hx with h | h
          · exact Or.inl h
          · exact Or.inr (by simp [h])

theorem foldl_counts_keys (user : String) (current : List String)
    (P : String → Prop) :
    ∀ (l : List String) (acc : List (String × Nat)),
      (∀ x ∈ acc.map Prod.fst, P x) →
      (∀ c ∈ l, c ≠ user → c ∉ current → P c) →
      ∀ x ∈ ((l.foldl
        (fun acc c => if c ≠ user ∧ c ∉ current then bump acc c else acc) acc).map
          Prod.fst), P x := by
  intro l
  induction l with
  | nil =>
      intro acc hacc _ x hx
      exact hacc x hx
  | cons c cs ih =>
      intro acc hacc hl x hx
      simp only [List.foldl_cons] at hx
      by_cases hc : c ≠ user ∧ c ∉ current
      · rw [if_pos hc] at hx
        refine ih (bump acc c) ?_ (fun d hd => hl d (List.mem_cons_of_mem c hd)) x hx
        intro y hy
        rcases bump_keys acc c y hy with h | h
        · rw [h]
          exact hl c (List.mem_cons_self c cs) hc.1 hc.2
        · exact hacc y h
      · rw [if_neg hc] at hx
        exact ih acc hacc (fun d hd => hl d (List.mem_cons_of_mem c hd)) x hx

/-- Claim C8: for a user present in the graph, every recommended candidate
is reachable in exactly two directed hops (a successor of a direct
successor), is neither the user nor a direct successor, and the
recommendation pairs are sorted by mutual count descending. -/
theorem recommend_friends_spec (g : SocialGraph) (u : String) (hu : u ∈ nodeKeys g) :
    (∀ p ∈ recommend_friends g u,
      (∃ f ∈ successors g u, p.1 ∈ successors g f) ∧ p.1 ≠ u ∧ p.1 ∉ successors g u)
    ∧ List.Pairwise (fun a b => b.2 ≤ a.2) (recommend_friends g u) := by
  unfold recommend_friends
  rw [if_pos hu]
  constructor
  · intro p hp
    have hmem : p ∈ ((successors g u).flatMap (fun f => successors g f)).foldl
        (fun acc c => if c ≠ u ∧ c ∉ successors g u then bump acc c else acc) [] :=
      (List.mergeSort_perm _ _).mem_iff.mp hp
    have hkey : p.1 ∈ (((successors g u).flatMap (fun f => successors g f)).foldl
        (fun acc c => if c ≠ u ∧ c ∉ successors g u then bump acc c else acc) []).map
          Prod.fst := List.mem_map_of_mem Prod.fst hmem
    refine foldl_counts_keys u (successors g u)
      (fun c => (∃ f ∈ successors g u, c ∈ successors g f) ∧ c ≠ u ∧ c ∉ successors g u)
      _ [] (by simp) ?_ p.1 hkey
    intro c hc hne hnc
    exact ⟨List.mem_flatMap.mp hc, hne, hnc⟩
  · have hs := @List.sorted_mergeSort (String × Nat)
      (fun a b => decide (b.2 ≤ a.2))
      (fun a b c hab hbc => by
        simp only [decide_eq_true_eq] at hab hbc ⊢
        exact le_trans hbc hab)
      (fun a b => by
        simp only [Bool.or_eq_true, decide_eq_true_eq]
        exact le_total b.2 a.2)
      (((successors g u).flatMap (fun f => successors g f)).foldl
        (fun acc c => if c ≠ u ∧ c ∉ successors g u then bump acc c else acc) [])
    refine List.Pairwise.imp ?_ hs
    intro a b h
    simpa using h

/-- Witness for C8 at the chain graph: from a, the single candidate c is a
two-hop neighbour, not a, not a direct successor, and the one-element list
is sorted. -/
theorem recommend_friends_spec_witness :
    (∀ p ∈ recommend_friends chainGraph "a",
      (∃ f ∈ successors chainGraph "a", p.1 ∈ successors chainGraph f) ∧
        p.1 ≠ "a" ∧ p.1 ∉ successors chainGraph "a")
    ∧ List.Pairwise (fun a b => b.2 ≤ a.2) (recommend_friends chainGraph "a") :=
  recommend_friends_spec chainGraph "a" (by decide)

/-! Centrality bounds development. -/

theorem lookupD_prop {α : Type} (P : α → Prop) (l : List (String × α)) (k : String)
    (d : α) (hP : ∀ p ∈ l, P p.2) (hd : P d) : P (lookupD l k d) := by
  induction l with
  | nil => exact hd
  | cons q rest ih =>
      obtain ⟨a, b⟩ := q
      simp only [lookupD]
      by_cases hak : a = k
      · rw [if_pos hak]
        exact hP (a, b) (List.mem_cons_self _ _)
      · rw [if_neg hak]
        exact ih (fun p hp => hP p (List.mem_cons_of_mem _ hp))

theorem out_filter_length_le (g : SocialGraph) (u : String) (wf : WF g)
    (hnl : ∀ p ∈ edgePairs g, p.1 ≠ p.2) :
    ((edgePairs g).filter (fun e => decide (e.1 = u))).length ≤
      (nodeKeys g).length - 1 := by
  cases hF : (edgePairs g).filter (fun e => decide (e.1 = u)) with
  | nil => simp
  | cons e es =>
      rw [← hF]
      have hmemF : ∀ x ∈ (edgePairs g).filter (fun e => decide (e.1 = u)),
          x ∈ edgePairs g ∧ x.1 = u := by
        intro x hx
        have := List.mem_filter.mp hx
        exact ⟨this.1, by simpa using this.2⟩
      have hu : u ∈ nodeKeys g := by
        have he : e ∈ (edgePairs g).filter (fun e => decide (e.1 = u)) := by
          rw [hF]
          exact List.mem_cons_self e es
        obtain ⟨hge, hfst⟩ := hmemF e he
        rw [← hfst]
        exact wf.srcMem e hge
      have hndL : ((edgePairs g).filter (fun e => decide (e.1 = u))).Nodup :=
        wf.edgesNodup.filter _
      have hndT : (((edgePairs g).filter (fun e => decide (e.1 = u))).map
          Prod.snd).Nodup := by
        refine List.Nodup.map_on ?_ hndL
        intro x hx y hy hxy
        obtain ⟨_, hx1⟩ := hmemF x hx
        obtain ⟨_, hy1⟩ := hmemF y hy
        obtain ⟨x1, x2⟩ := x
        obtain ⟨y1, y2⟩ := y
        simp only at hx1 hy1 hxy
        rw [hx1, hy1, hxy]
      have hsub : (((edgePairs g).filter (fun e => decide (e.1 = u))).map
          Prod.snd).toFinset ⊆ (nodeKeys g).toFinset.erase u := by
        intro v hv
        rw [List.mem_toFinset, List.mem_map] at hv
        obtain ⟨x, hx, hxv⟩ := hv
        obtain ⟨hxg, hx1⟩ := hmemF x hx
        rw [Finset.mem_erase]
        constructor
        · intro hc
          exact hnl x hxg (by rw [hx1, ← hc, hxv])
        · rw [List.mem_toFinset, ← hxv]
          exact wf.dstMem x hxg
      have hlen : ((edgePairs g).filter (fun e => decide (e.1 = u))).length =
          (((edgePairs g).filter (fun e => decide (e.1 = u))).map Prod.snd).toFinset.card := by
        rw [List.toFinset_card_of_nodup hndT, List.length_map]
      rw [hlen]
      have h1 := Finset.card_le_card hsub
      rw [Finset.card_erase_of_mem (List.mem_toFinset.mpr hu)] at h1
      calc (((edgePairs g).filter (fun e => decide (e.1 = u))).map
            Prod.snd).toFinset.card ≤ (nodeKeys g).toFinset.card - 1 := h1
        _ ≤ (nodeKeys g).length - 1 :=
            Nat.sub_le_sub_right (List.toFinset_card_le (nodeKeys g)) 1

theorem in_filter_length_le (g : SocialGraph) (u : String) (wf : WF g)
    (hnl : ∀ p ∈ edgePairs g, p.1 ≠ p.2) :
    ((edgePairs g).filter (fun e => decide (e.2 = u))).length ≤
      (nodeKeys g).length - 1 := by
  cases hF : (edgePairs g).filter (fun e => decide (e.2 = u)) with
  | nil => simp
  | cons e es =>
      rw [← hF]
      have hmemF : ∀ x ∈ (edgePairs g).filter (fun e => decide (e.2 = u)),
          x ∈ edgePairs g ∧ x.2 = u := by
        intro x hx
        have := List.mem_filter.mp hx
        exact ⟨this.1, by simpa using this.2⟩
      have hu : u ∈ nodeKeys g := by
        have he : e ∈ (edgePairs g).filter (fun e => decide (e.2 = u)) := by
          rw [hF]
          exact List.mem_cons_self e es
        obtain ⟨hge, hsnd⟩ := hmemF e he
        rw [← hsnd]
        exact wf.dstMem e hge
      have hndL : ((edgePairs g).filter (fun e => decide (e.2 = u))).Nodup :=
        wf.edgesNodup.filter _
      have hndT : (((edgePairs g).filter (fun e => decide (e.2 = u))).map
          Prod.fst).Nodup := by
        refine List.Nodup.map_on ?_ hndL
        intro x hx y hy hxy
        obtain ⟨_, hx2⟩ := hmemF x hx
        obtain ⟨_, hy2⟩ := hmemF y hy
        obtain ⟨x1, x2⟩ := x
        obtain ⟨y1, y2⟩ := y
        simp only at hx2 hy2 hxy
        rw [hx2, hy2, hxy]
      have hsub : (((edgePairs g).filter (fun e => decide (e.2 = u))).map
          Prod.fst).toFinset ⊆ (nodeKeys g).toFinset.erase u := by
        intro v hv
        rw [List.mem_toFinset, List.mem_map] at hv
        obtain ⟨x, hx, hxv⟩ := hv
        obtain ⟨hxg, hx2⟩ := hmemF x hx
        rw [Finset.mem_erase]
        constructor
        · intro hc
          exact hnl x hxg (by rw [hxv, hc, hx2])
        · rw [List.mem_toFinset, ← hxv]
          exact wf.srcMem x hxg
      have hlen : ((edgePairs g).filter (fun e => decide (e.2 = u))).length =
          (((edgePairs g).filter (fun e => decide (e.2 = u))).map Prod.fst).toFinset.card := by
        rw [List.toFinset_card_of_nodup hndT, List.length_map]
      rw [hlen]
      have h1 := Finset.card_le_card hsub
      rw [Finset.card_erase_of_mem (List.mem_toFinset.mpr hu)] at h1
      calc (((edgePairs g).filter (fun e => decide (e.2 = u))).map
            Prod.fst).toFinset.card ≤ (nodeKeys g).toFinset.card - 1 := h1
        _ ≤ (nodeKeys g).length - 1 :=
            Nat.sub_le_sub_right (List.toFinset_card_le (nodeKeys g)) 1

theorem degree_le (g : SocialGraph) (u : String) (wf : WF g)
    (hnl : ∀ p ∈ edgePairs g, p.1 ≠ p.2) :
    degree g u ≤ 2 * ((nodeKeys g).length - 1) := by
  unfold degree
  have h1 := out_filter_length_le g u wf hnl
  have h2 := in_filter_length_le g u wf hnl
  omega

theorem degree_centrality_bounds (g : SocialGraph) (wf : WF g)
    (hnl : ∀ p ∈ edgePairs g, p.1 ≠ p.2) :
    ∀ p ∈ degree_centrality g, 0 ≤ p.2 ∧ p.2 ≤ 2 := by
  unfold degree_centrality
  by_cases hn : (nodeKeys g).length ≤ 1
  · rw [if_pos hn]
    intro p hp
    obtain ⟨n, _, hpn⟩ := List.mem_map.mp hp
    rw [← hpn]
    norm_num
  · rw [if_neg hn]
    intro p hp
    obtain ⟨n, _, hpn⟩ := List.mem_map.mp hp
    rw [← hpn]
    have hlen : 2 ≤ (nodeKeys g).length := by omega
    have hpos : (0 : ℚ) < ((nodeKeys g).length : ℚ) - 1 := by
      have h2 : (2 : ℚ) ≤ ((nodeKeys g).length : ℚ) := by exact_mod_cast hlen
      linarith
    have hcast : (((nodeKeys g).length - 1 : ℕ) : ℚ) = ((nodeKeys g).length : ℚ) - 1 :=
      Nat.cast_sub (by omega)
    constructor
    · exact div_nonneg (Nat.cast_nonneg _) (le_of_lt hpos)
    · rw [div_le_iff₀ hpos]
      have hdeg : ((degree g n : ℕ) : ℚ) ≤ ((2 * ((nodeKeys g).length - 1) : ℕ) : ℚ) := by
        exact_mod_cast degree_le g n wf hnl
      calc ((degree g n : ℕ) : ℚ) ≤ ((2 * ((nodeKeys g).length - 1) : ℕ) : ℚ) := hdeg
        _ = 2 * (((nodeKeys g).length : ℚ) - 1) := by
            push_cast [hcast]
            ring

theorem getD_entries_bounds (o : Option (List (String × ℚ))) (g : SocialGraph)
    (hsome : ∀ l, o = some l → ∀ p ∈ l, 0 ≤ p.2 ∧ p.2 ≤ 1) :
    ∀ p ∈ o.getD ((nodeKeys g).map (fun m => (m, (0 : ℚ)))), 0 ≤ p.2 ∧ p.2 ≤ 1 := by
  cases o with
  | some l => exact hsome l rfl
  | none =>
      intro p hp
      obtain ⟨n, _, hpn⟩ := List.mem_map.mp hp
      rw [← hpn]
      norm_num

/-- Claim C5 as amended: in every record returned by
get_centrality_measures, the degree score lies in [0, 2] (in-degree plus
out-degree over n − 1, for a loop-free graph with at most one edge per
ordered pair; the claimed upper bound 1 is wrong for directed graphs),
while the eigenvector, betweenness and closeness scores lie in [0, 1]
whenever the library computations do (each falling back to 0.0 on
failure). -/
theorem centrality_measures_bounds (lib : CentralityLib) (g : SocialGraph) (wf : WF g)
    (hnl : ∀ p ∈ edgePairs g, p.1 ≠ p.2)
    (heig : ∀ l, lib.eigenvector g = some l → ∀ p ∈ l, 0 ≤ p.2 ∧ p.2 ≤ 1)
    (hbet : ∀ l, lib.betweenness g = some l → ∀ p ∈ l, 0 ≤ p.2 ∧ p.2 ≤ 1)
    (hclo : ∀ l, lib.closeness g = some l → ∀ p ∈ l, 0 ≤ p.2 ∧ p.2 ≤ 1) :
    ∀ p ∈ get_centrality_measures lib g,
      (0 ≤ p.2.degreeC ∧ p.2.degreeC ≤ 2) ∧
        (0 ≤ p.2.eigenvectorC ∧ p.2.eigenvectorC ≤ 1) ∧
        (0 ≤ p.2.betweennessC ∧ p.2.betweennessC ≤ 1) ∧
        (0 ≤ p.2.closenessC ∧ p.2.closenessC ≤ 1) := by
  unfold get_centrality_measures
  by_cases hz : (nodeKeys g).length = 0
  · rw [if_pos hz]
    intro p hp
    cases hp
  · rw [if_neg hz]
    intro p hp
    obtain ⟨n, _, hpn⟩ := List.mem_map.mp hp
    rw [← hpn]
    refine ⟨?_, ?_, ?_, ?_⟩
    · exact lookupD_prop (fun q => 0 ≤ q ∧ q ≤ 2) (degree_centrality g) n 0
        (degree_centrality_bounds g wf hnl) (by norm_num)
    · exact lookupD_prop (fun q => 0 ≤ q ∧ q ≤ 1) _ n 0
        (getD_entries_bounds (lib.eigenvector g) g heig) (by norm_num)
    · exact lookupD_prop (fun q => 0 ≤ q ∧ q ≤ 1) _ n 0
        (getD_entries_bounds (lib.betweenness g) g hbet) (by norm_num)
    · exact lookupD_prop (fun q => 0 ≤ q ∧ q ≤ 1) _ n 0
        (getD_entries_bounds (lib.closeness g) g hclo) (by norm_num)

/-- The two-node graph with reciprocal edges a → b and b → a. -/
def mutualPair : SocialGraph :=
  (add_friendship
    (add_friendship (add_user (add_user emptyGraph "a" []) "b" []) "a" "b" none).2
    "b" "a" none).2

/-- A centrality library whose three optional computations all fail,
exercising only the fallback paths (the degree field never depends on it). -/
def zeroCentralityLib : CentralityLib := ⟨fun _ => none, fun _ => none, fun _ => none⟩

/-- Claim C5 counterexample: on the reciprocal two-node graph the degree
centrality stored in the record for a is (1 + 1) / (2 − 1) = 2, which is
not in [0, 1] — so not all four scores lie in [0, 1]. -/
theorem centrality_unit_interval_counterexample :
    (lookupD (get_centrality_measures zeroCentralityLib mutualPair) "a" zeroRecord).degreeC
        = 2 ∧
      ¬ ((lookupD (get_centrality_measures zeroCentralityLib mutualPair) "a"
        zeroRecord).degreeC ≤ 1) := by
  have hn : nodeKeys mutualPair = ["a", "b"] := by decide
  have hda : degree mutualPair "a" = 2 := by decide
  have hdb : degree mutualPair "b" = 2 := by decide
  have hrec : (lookupD (get_centrality_measures zeroCentralityLib mutualPair) "a"
      zeroRecord).degreeC = 2 := by
    simp only [get_centrality_measures, degree_centrality, hn, zeroCentralityLib,
      List.length_cons, List.length_nil, List.map_cons, List.map_nil, Option.getD, hda, hdb]
    norm_num [lookupD]
  refine ⟨hrec, ?_⟩
  rw [hrec]
  norm_num

/-! Spread-simulation development. -/

theorem mem_closStep (adj : String → List String) (nodes : List String)
    (S : Finset String) (v : String) :
    v ∈ closStep adj nodes S ↔ ∃ u ∈ nodes, u ∈ S ∧ v ∈ adj u ∧ v ∉ S := by
  unfold closStep
  simp only [List.mem_flatMap, List.mem_filter, decide_eq_true_eq, Bool.not_eq_true',
    decide_eq_false_iff_not]
  constructor
  · rintro ⟨u, ⟨hun, huS⟩, hv, hvS⟩
    exact ⟨u, hun, huS, hv, hvS⟩
  · rintro ⟨u, hun, huS, hv, hvS⟩
    exact ⟨u, ⟨hun, huS⟩, hv, hvS⟩

theorem spreadTrials_one (ρ : Nat → ℚ) (hρ : ValidDraws ρ) (S : Finset String) :
    ∀ (vs : List String) (c : Nat),
      spreadTrials 1 ρ S vs c = vs.filter (fun v => !(decide (v ∈ S))) := by
  intro vs
  induction vs with
  | nil => intro c; rfl
  | cons v rest ih =>
      intro c
      by_cases hv : v ∈ S
      · rw [List.filter_cons]
        simp only [spreadTrials, if_pos hv]
        rw [ih c]
        simp [hv]
      · rw [List.filter_cons]
        simp only [spreadTrials, if_neg hv]
        rw [if_pos (hρ c).2, ih (c + 1)]
        simp [hv]

theorem spreadTrials_zero (ρ : Nat → ℚ) (hρ : ValidDraws ρ) (S : Finset String) :
    ∀ (vs : List String) (c : Nat), spreadTrials 0 ρ S vs c = [] := by
  intro vs
  induction vs with
  | nil => intro c; rfl
  | cons v rest ih =>
      intro c
      by_cases hv : v ∈ S
      · simp only [spreadTrials, if_pos hv]
        exact ih c
      · simp only [spreadTrials, if_neg hv]
        rw [if_neg (not_lt.mpr (hρ c).1)]
        exact ih (c + 1)

theorem spreadRound_one (g : SocialGraph) (ρ : Nat → ℚ) (hρ : ValidDraws ρ)
    (S : Finset String) :
    ∀ (us : List String) (c : Nat),
      spreadRound g 1 ρ S us c =
        us.flatMap (fun u => (successors g u).filter (fun v => !(decide (v ∈ S)))) := by
  intro us
  induction us with
  | nil => intro c; rfl
  | cons u rest ih =>
      intro c
      simp only [spreadRound, List.flatMap_cons]
      rw [spreadTrials_one ρ hρ S (successors g u) c, ih]

theorem spreadRound_zero (g : SocialGraph) (ρ : Nat → ℚ) (hρ : ValidDraws ρ)
    (S : Finset String) :
    ∀ (us : List String) (c : Nat), spreadRound g 0 ρ S us c = [] := by
  intro us
  induction us with
  | nil => intro c; rfl
  | cons u rest ih =>
      intro c
      simp only [spreadRound]
      rw [spreadTrials_zero ρ hρ S (successors g u) c, ih]
      rfl

theorem spreadLoop_one (g : SocialGraph) (ρ : Nat → ℚ) (hρ : ValidDraws ρ) :
    ∀ (n : Nat) (S : Finset String) (c : Nat),
      spreadLoop g 1 ρ n S c = closLoop (successors g) (nodeKeys g) n S := by
  intro n
  induction n with
  | zero => intro S c; rfl
  | succ m ih =>
      intro S c
      have hr : ∀ c2, spreadRound g 1 ρ S
          ((nodeKeys g).filter (fun u => decide (u ∈ S))) c2 =
          closStep (successors g) (nodeKeys g) S := by
        intro c2
        rw [spreadRound_one g ρ hρ S _ c2]
        rfl
      simp only [spreadLoop, closLoop, hr]
      by_cases h : closStep (successors g) (nodeKeys g) S = []
      · rw [if_pos h, if_pos h]
      · rw [if_neg h, if_neg h, ih]

theorem spreadLoop_zero (g : SocialGraph) (ρ : Nat → ℚ) (hρ : ValidDraws ρ) :
    ∀ (n : Nat) (S : Finset String) (c : Nat), spreadLoop g 0 ρ n S c = S := by
  intro n
  induction n with
  | zero => intro S c; rfl
  | succ m ih =>
      intro S c
      simp only [spreadLoop]
      rw [spreadRound_zero g ρ hρ S _ c]
      exact if_pos rfl

theorem closLoop_mono (adj : String → List String) (nodes : List String) :
    ∀ (n : Nat) (S : Finset String), S ⊆ closLoop adj nodes n S := by
  intro n
  induction n with
  | zero => intro S x hx; exact hx
  | succ m ih =>
      intro S
      unfold closLoop
      by_cases h : closStep adj nodes S = []
      · rw [if_pos h]
      · rw [if_neg h]
        exact fun x hx => ih _ (Finset.mem_union_left _ hx)

theorem closLoop_closed (adj : String → List String) (nodes : List String)
    (hadj : ∀ u v, v ∈ adj u → v ∈ nodes) :
    ∀ (n : Nat) (S : Finset String), S ⊆ nodes.toFinset →
      nodes.toFinset.card ≤ n + S.card →
      closStep adj nodes (closLoop adj nodes n S) = [] := by
  intro n
  induction n with
  | zero =>
      intro S hsub hcard
      have hS : S = nodes.toFinset := Finset.eq_of_subset_of_card_le hsub (by omega)
      show closStep adj nodes S = []
      rw [List.eq_nil_iff_forall_not_mem]
      intro v hv
      obtain ⟨u, hun, huS, hvadj, hvS⟩ := (mem_closStep adj nodes S v).mp hv
      exact hvS (hS ▸ List.mem_toFinset.mpr (hadj u v hvadj))
  | succ m ih =>
      intro S hsub hcard
      unfold closLoop
      by_cases hc : closStep adj nodes S = []
      · rw [if_pos hc]
        exact hc
      · rw [if_neg hc]
        have hne : ∃ v, v ∈ closStep adj nodes S := by
          cases hcs : closStep adj nodes S with
          | nil => exact absurd hcs hc
          | cons a l => exact ⟨a, hcs ▸ List.mem_cons_self a l⟩
        obtain ⟨v, hv⟩ := hne
        obtain ⟨u, hun, huS, hvadj, hvS⟩ := (mem_closStep adj nodes S v).mp hv
        have hsub2 : S ∪ (closStep adj nodes S).toFinset ⊆ nodes.toFinset := by
          intro x hx
          rcases Finset.mem_union.mp hx with hx | hx
          · exact hsub hx
          · rw [List.mem_toFinset] at hx
            obtain ⟨u2, _, _, hadj2, _⟩ := (mem_closStep adj nodes S x).mp hx
            exact List.mem_toFinset.mpr (hadj u2 x hadj2)
        have hcard2 : S.card < (S ∪ (closStep adj nodes S).toFinset).card := by
          apply Finset.card_lt_card
          rw [Finset.ssubset_def]
          refine ⟨Finset.subset_union_left, fun hcontra => ?_⟩
          exact hvS (hcontra (Finset.mem_union_right _ (List.mem_toFinset.mpr hv)))
        exact ih _ hsub2 (by omega)

theorem reaches_mem_of_closStep_nil (g : SocialGraph) (wf : WF g) (S : Finset String)
    (hnil : closStep (successors g) (nodeKeys g) S = []) (start : String)
    (hstart : start ∈ S) :
    ∀ u, Reaches g start u → u ∈ S := by
  intro u h
  induction h with
  | refl => exact hstart
  | tail hab hedge ih =>
      by_contra hc
      rename_i b c2
      have hb_node : b ∈ nodeKeys g := wf.srcMem (b, c2) hedge
      have hsucc : c2 ∈ successors g b := (mem_successors g b c2).mpr hedge
      have hmem : c2 ∈ closStep (successors g) (nodeKeys g) S :=
        (mem_closStep (successors g) (nodeKeys g) S c2).mpr ⟨b, hb_node, ih, hsucc, hc⟩
      rw [hnil] at hmem
      cases hmem

theorem mem_closLoop_reaches (g : SocialGraph) (start : String) :
    ∀ (n : Nat) (S : Finset String), (∀ y ∈ S, Reaches g start y) →
      ∀ x ∈ closLoop (successors g) (nodeKeys g) n S, Reaches g start x := by
  intro n
  induction n with
  | zero => intro S hS x hx; exact hS x hx
  | succ m ih =>
      intro S hS x hx
      unfold closLoop at hx
      by_cases hc : closStep (successors g) (nodeKeys g) S = []
      · rw [if_pos hc] at hx
        exact hS x hx
      · rw [if_neg hc] at hx
        refine ih _ ?_ x hx
        intro y hy
        rcases Finset.mem_union.mp hy with hy | hy
        · exact hS y hy
        · rw [List.mem_toFinset] at hy
          obtain ⟨u, _, huS, hsucc, _⟩ :=
            (mem_closStep (successors g) (nodeKeys g) S y).mp hy
          exact (hS u huS).tail ((mem_successors g u y).mp hsucc)

/-- Claim C1: with probability 1.0 (every uniform draw lies below 1) and at
least as many iterations as there are nodes, the returned mapping marks a
node informed exactly when it is forward-reachable from the seed along
directed edges (the seed itself via the empty path); no symmetrized view
enters. -/
theorem simulate_spread_full_probability (g : SocialGraph) (start : String) (n : Nat)
    (ρ : Nat → ℚ) (wf : WF g) (hρ : ValidDraws ρ) (hstart : start ∈ nodeKeys g)
    (hn : (nodeKeys g).length ≤ n) :
    ∀ u ∈ nodeKeys g,
      ((u, true) ∈ simulate_information_spread g start 1 n ρ ↔ Reaches g start u) := by
  intro u hu
  unfold simulate_information_spread
  rw [if_pos hstart, spreadLoop_one g ρ hρ n {start} 0]
  have hadj : ∀ a v, v ∈ successors g a → v ∈ nodeKeys g := by
    intro a v hv
    exact wf.dstMem (a, v) ((mem_successors g a v).mp hv)
  have hsub0 : ({start} : Finset String) ⊆ (nodeKeys g).toFinset := by
    intro x hx
    rw [Finset.mem_singleton] at hx
    subst hx
    exact List.mem_toFinset.mpr hstart
  have hnil : closStep (successors g) (nodeKeys g)
      (closLoop (successors g) (nodeKeys g) n {start}) = [] := by
    apply closLoop_closed (successors g) (nodeKeys g) hadj n {start} hsub0
    have hle := List.toFinset_card_le (nodeKeys g)
    have hc1 : ({start} : Finset String).card = 1 := Finset.card_singleton start
    omega
  constructor
  · intro hmem
    rw [List.mem_map] at hmem
    obtain ⟨v, hv, hvu⟩ := hmem
    have hv1 : v = u := congrArg Prod.fst hvu
    have hv2 : decide (v ∈ closLoop (successors g) (nodeKeys g) n {start}) = true :=
      congrArg Prod.snd hvu
    subst hv1
    have hvF : v ∈ closLoop (successors g) (nodeKeys g) n {start} := of_decide_eq_true hv2
    refine mem_closLoop_reaches g start n {start} ?_ v hvF
    intro y hy
    rw [Finset.mem_singleton] at hy
    subst hy
    exact Relation.ReflTransGen.refl
  · intro hreach
    have huF : u ∈ closLoop (successors g) (nodeKeys g) n {start} :=
      reaches_mem_of_closStep_nil g wf _ hnil start
        (closLoop_mono (successors g) (nodeKeys g) n {start} (Finset.mem_singleton_self start))
        u hreach
    rw [List.mem_map]
    exact ⟨u, hu, by rw [decide_eq_true huF]⟩

/-- Witness for C1 at the chain graph: with probability 1 and three
iterations, c (two directed hops from a) is marked informed. -/
theorem simulate_spread_full_probability_witness :
    ("c", true) ∈ simulate_information_spread chainGraph "a" 1 3 (fun _ => 0) :=
  (simulate_spread_full_probability chainGraph "a" 3 (fun _ => 0) chainGraph_wf
      (fun _ => ⟨le_refl 0, by norm_num⟩) (by decide) (by decide) "c" (by decide)).mpr
    (Relation.ReflTransGen.tail
      (Relation.ReflTransGen.single (show ("a", "b") ∈ edgePairs chainGraph by decide))
      (show ("b", "c") ∈ edgePairs chainGraph by decide))

/-- Claim C9: an unknown seed yields the empty mapping; a known seed yields
a mapping keyed exactly by the graph's nodes (for any probability); and
with probability 0.0 (no uniform draw is negative) a node is marked
informed exactly when it is the seed, for any number of iterations. -/
theorem simulate_spread_shape_and_zero (g : SocialGraph) (start : String) (p : ℚ)
    (n : Nat) (ρ : Nat → ℚ) (hρ : ValidDraws ρ) :
    (start ∉ nodeKeys g → simulate_information_spread g start p n ρ = [])
    ∧ (start ∈ nodeKeys g →
        (simulate_information_spread g start p n ρ).map Prod.fst = nodeKeys g)
    ∧ (start ∈ nodeKeys g →
        ∀ q ∈ simulate_information_spread g start 0 n ρ, q.2 = true ↔ q.1 = start) := by
  refine ⟨?_, ?_, ?_⟩
  · intro h
    unfold simulate_information_spread
    rw [if_neg h]
  · intro h
    unfold simulate_information_spread
    rw [if_pos h, List.map_map]
    have hcomp : (Prod.fst ∘ fun u =>
        ((u : String), decide (u ∈ spreadLoop g p ρ n {start} 0))) = id := rfl
    rw [hcomp, List.map_id]
  · intro h q hq
    unfold simulate_information_spread at hq
    rw [if_pos h, spreadLoop_zero g ρ hρ n {start} 0] at hq
    rw [List.mem_map] at hq
    obtain ⟨v, hv, hvq⟩ := hq
    rw [← hvq]
    simp

/-- Witness for C9 at the chain graph: unknown seed x gives the empty
mapping, seed a gives a mapping keyed by the three users, and with
probability 0 only a is marked informed. -/
theorem simulate_spread_shape_and_zero_witness :
    simulate_information_spread chainGraph "x" (1 / 2) 5 (fun _ => 1 / 3) = []
    ∧ (simulate_information_spread chainGraph "a" (1 / 2) 5
        (fun _ => 1 / 3)).map Prod.fst = nodeKeys chainGraph
    ∧ ∀ q ∈ simulate_information_spread chainGraph "a" 0 5 (fun _ => 1 / 3),
        q.2 = true ↔ q.1 = "a" := by
  have hv : ValidDraws (fun _ => (1 : ℚ) / 3) := fun _ => ⟨by norm_num, by norm_num⟩
  exact ⟨(simulate_spread_shape_and_zero chainGraph "x" (1 / 2) 5 (fun _ => 1 / 3) hv).1
      (by decide),
    (simulate_spread_shape_and_zero chainGraph "a" (1 / 2) 5 (fun _ => 1 / 3) hv).2.1
      (by decide),
    (simulate_spread_shape_and_zero chainGraph "a" (1 / 2) 5 (fun _ => 1 / 3) hv).2.2
      (by decide)⟩

/-- Witness for C5 as amended, at the record the chain graph stores for a
(degree 1 over n − 1 = 2, all library scores fallen back to 0). -/
theorem centrality_measures_bounds_witness :
    (0 ≤ (⟨1 / 2, 0, 0, 0⟩ : CentralityRecord).degreeC ∧
        (⟨1 / 2, 0, 0, 0⟩ : CentralityRecord).degreeC ≤ 2) ∧
      (0 ≤ (⟨1 / 2, 0, 0, 0⟩ : CentralityRecord).eigenvectorC ∧
        (⟨1 / 2, 0, 0, 0⟩ : CentralityRecord).eigenvectorC ≤ 1) ∧
      (0 ≤ (⟨1 / 2, 0, 0, 0⟩ : CentralityRecord).betweennessC ∧
        (⟨1 / 2, 0, 0, 0⟩ : CentralityRecord).betweennessC ≤ 1) ∧
      (0 ≤ (⟨1 / 2, 0, 0, 0⟩ : CentralityRecord).closenessC ∧
        (⟨1 / 2, 0, 0, 0⟩ : CentralityRecord).closenessC ≤ 1) := by
  have hn : nodeKeys chainGraph = ["a", "b", "c"] := by decide
  have hda : degree chainGraph "a" = 1 := by decide
  have hdb : degree chainGraph "b" = 2 := by decide
  have hdc : degree chainGraph "c" = 1 := by decide
  have hmem : ("a", (⟨1 / 2, 0, 0, 0⟩ : CentralityRecord)) ∈
      get_centrality_measures zeroCentralityLib chainGraph := by
    simp only [get_centrality_measures, degree_centrality, hn, zeroCentralityLib,
      List.length_cons, List.length_nil, List.map_cons, List.map_nil, Option.getD,
      hda, hdb, hdc]
    norm_num [lookupD]
  exact centrality_measures_bounds zeroCentralityLib chainGraph chainGraph_wf (by decide)
    (fun l h => Option.noConfusion h) (fun l h => Option.noConfusion h)
    (fun l h => Option.noConfusion h) ("a", ⟨1 / 2, 0, 0, 0⟩) hmem

end SocialMedia
